import Mathlib

/-!
A verification development for the path-confined folder abstraction
(`aida/common/classes/folder.py`).  POSIX paths are modelled as `String`s
over a symlink-free filesystem with the working directory at `/`; the
filesystem itself is modelled as an association list from canonical path
keys (lists of path segments) to entries (regular files with contents, or
directories).  Each Python function of the source is translated into a
Lean definition of the same name; OS and `shutil` primitives are modelled
at the granularity the source uses them.
-/

/-- Split a character list on `'/'` boundaries (the pieces of
`str.split('/')`); pieces contain no `'/'`. -/
def splitOnSlash : List Char → List (List Char)
  | [] => [[]]
  | c :: cs =>
    match splitOnSlash cs with
    | [] => [[c]]
    | p :: ps => if c = '/' then [] :: p :: ps else (c :: p) :: ps

/-- The nonempty path segments of a character list (empty pieces produced
by repeated or leading slashes are dropped, as `os.path` normalization does). -/
def segsOf (l : List Char) : List (List Char) :=
  (splitOnSlash l).filter (fun s => !s.isEmpty)

/-- Process `.` and `..` segments left to right with a stack `acc`
(reversed), clamping `..` at the root, exactly as resolving a path from
`/` does. -/
def normSegs : List (List Char) → List (List Char) → List (List Char)
  | acc, [] => acc.reverse
  | acc, s :: rest =>
    if s = ['.'] then normSegs acc rest
    else if s = ['.', '.'] then normSegs acc.tail rest
    else normSegs (s :: acc) rest

/-- Join path segments with `'/'` separators. -/
def joinSegs : List (List Char) → List Char
  | [] => []
  | [s] => s
  | s :: rest => s ++ '/' :: joinSegs rest

/-- Canonicalization at the character-list level: the canonical absolute
path with `.`/`..` resolved. -/
def realpathData (l : List Char) : List Char :=
  '/' :: joinSegs (normSegs [] (segsOf l))

/-- Model of `os.path.realpath` on a symlink-free filesystem with the
working directory at `/`: resolve `.` and `..` segments and collapse
slashes, yielding a canonical absolute path. -/
def realpath (s : String) : String :=
  ⟨realpathData s.data⟩

/-- The canonical key of a path: its canonical list of segments.  Two path
strings denote the same filesystem object iff they have the same key. -/
def pathKeyData (l : List Char) : List (List Char) :=
  normSegs [] (segsOf l)

/-- Canonical segment-list key of a path string. -/
def pathKey (s : String) : List (List Char) :=
  pathKeyData s.data

/-- Character-wise longest common prefix of two character lists. -/
def lcpData : List Char → List Char → List Char
  | a :: as, b :: bs => if a = b then a :: lcpData as bs else []
  | _, _ => []

/-- Model of `os.path.commonprefix` applied to a two-element list: the
character-wise (NOT segment-wise) longest common prefix of the two strings. -/
def commonprefix2 (a b : String) : String :=
  ⟨lcpData a.data b.data⟩

/-- Does the character list end with a `'/'`? (`str.endswith('/')`). -/
def endsWithSlash : List Char → Bool
  | [] => false
  | [c] => c = '/'
  | _ :: c :: cs => endsWithSlash (c :: cs)

/-- Model of `posixpath.join` on two arguments: if `b` is absolute it wins;
otherwise a separator is inserted unless `a` is empty or already ends in one. -/
def os_path_join (a b : String) : String :=
  if b.data.head? = some '/' then b
  else if a.data.isEmpty || endsWithSlash a.data then ⟨a.data ++ b.data⟩
  else ⟨a.data ++ '/' :: b.data⟩

/-- Model of `posixpath.split`: break at the last slash; the head keeps no
trailing slashes unless it consists only of slashes. -/
def os_path_split (p : String) : String × String :=
  let l := p.data
  let tailPart := (l.reverse.takeWhile (fun c => c != '/')).reverse
  let headPart := (l.reverse.dropWhile (fun c => c != '/')).reverse
  let head :=
    if headPart.isEmpty || headPart.all (fun c => c == '/') then headPart
    else (headPart.reverse.dropWhile (fun c => c == '/')).reverse
  (⟨head⟩, ⟨tailPart⟩)

/-- Model of `os.path.basename`. -/
def os_path_basename (p : String) : String :=
  (os_path_split p).2

/-- Model of `os.path.dirname`. -/
def os_path_dirname (p : String) : String :=
  (os_path_split p).1

/-- The error kinds raised by the source, named after the spec's error
taxonomy: `containmentError` is the `ValueError` raised by `Folder.__init__`
when the path escapes `folder_limit`; `invalidNameError` is the `ValueError`
raised by `Folder.get_filename`; `alreadyExistsError` is the `IOError`
raised by `Folder.replace_with_folder` on an existing destination.  The
remaining kinds model the `OSError`/`IOError` exceptions of the OS and
`shutil` primitives: `notFoundError` (ENOENT), `notADirectoryError`
(ENOTDIR, e.g. `rmtree` on a regular file or `mkdir` under one),
`isADirectoryError` (EISDIR, e.g. `copyfile` from or onto a directory),
`fileExistsError` (EEXIST from `mkdir`), and `sameFileError`
(`shutil.Error` when `copyfile` source and destination are the same
file). -/
inductive FolderError where
  | containmentError (abspath folder_limit : String)
  | invalidNameError (filename : String)
  | alreadyExistsError (path : String)
  | notFoundError (path : String)
  | notADirectoryError (path : String)
  | isADirectoryError (path : String)
  | fileExistsError (path : String)
  | sameFileError (src dst : String)
  deriving DecidableEq, Repr

/-- The `Folder` object's state: its two (canonicalized) path fields. -/
structure Folder where
  _abspath : String
  _folder_limit : String
  deriving DecidableEq, Repr

/-- Translation of `Folder.__init__`: canonicalize `abspath`, default the
limit to it, canonicalize the limit, and require
`os.path.commonprefix([abspath, folder_limit]) == folder_limit`
(a character-wise prefix test). -/
def Folder.init (abspath0 : String) (folder_limit0 : Option String) :
    Except FolderError Folder :=
  let abspath := realpath abspath0
  let fl0 := match folder_limit0 with
    | none => abspath
    | some fl => fl
  let folder_limit := realpath fl0
  if commonprefix2 abspath folder_limit = folder_limit then
    Except.ok ⟨realpath abspath, folder_limit⟩
  else
    Except.error (FolderError.containmentError abspath folder_limit)

/-- Translation of `Folder.get_filename`: join the name to the folder's
path and accept iff `os.path.split` recovers exactly the folder path and
the name. -/
def Folder.get_filename (f : Folder) (filename : String) :
    Except FolderError String :=
  let dest_abs_path := os_path_join f._abspath filename
  if os_path_split dest_abs_path = (f._abspath, filename) then
    Except.ok dest_abs_path
  else
    Except.error (FolderError.invalidNameError filename)

/-- Does `k` start with the segment list `q`?  (`q` is an ancestor-or-self
key of `k`.) -/
def keyStartsWith : List (List Char) → List (List Char) → Bool
  | _, [] => true
  | [], _ :: _ => false
  | a :: as, b :: bs => if a = b then keyStartsWith as bs else false

/-- Modelled from the spec: segment-wise containment — `p` is equal to or a
path-segment-wise descendant of `limit` (compare canonical segment lists,
not raw strings).  This is the comparison the spec mandates, used to state
how far the source's character-prefix test diverges from it. -/
def segContained (p limit : String) : Bool :=
  keyStartsWith (pathKey p) (pathKey limit)

/-- A filesystem entry: a regular file with its contents, or a directory.
(Symlinks are already resolved in this model; special files are out of
scope of the source's use of the filesystem.) -/
inductive FSEntry where
  | file (content : String)
  | dir
  deriving DecidableEq, Repr

/-- Is the entry a regular file? -/
def FSEntry.isFile : FSEntry → Bool
  | file _ => true
  | dir => false

/-- The filesystem: an association list from canonical path keys to
entries.  The root `/` (key `[]`) is implicitly always a directory. -/
abbrev FS := List (List (List Char) × FSEntry)

/-- First entry stored under key `k`, if any. -/
def fsGet : FS → List (List Char) → Option FSEntry
  | [], _ => none
  | (k, e) :: rest, q => if k = q then some e else fsGet rest q

/-- The entry at key `k`, treating the root as an ever-present directory. -/
def fsEntryAt (fs : FS) (k : List (List Char)) : Option FSEntry :=
  if k = [] then some FSEntry.dir else fsGet fs k

/-- Store entry `e` at key `k`, replacing any previous entry. -/
def fsSet (fs : FS) (k : List (List Char)) (e : FSEntry) : FS :=
  (k, e) :: fs.filter (fun ke => ke.1 != k)

/-- Model of `os.path.exists`. -/
def os_path_exists (fs : FS) (p : String) : Bool :=
  (fsEntryAt fs (pathKey p)).isSome

/-- Model of `os.path.isdir` (symlinks already resolved). -/
def os_path_isdir (fs : FS) (p : String) : Bool :=
  match fsEntryAt fs (pathKey p) with
  | some FSEntry.dir => true
  | _ => false

/-- If `k` is `q ++ [n]` for some final segment `n` — i.e. a direct child
of `q` — return that bare name `n`. -/
def childName? : List (List Char) → List (List Char) → Option (List Char)
  | [], [n] => some n
  | a :: ps, b :: ks => if a = b then childName? ps ks else none
  | _, _ => none

/-- Model of `os.listdir`: bare names of the direct children of `p`, in
storage order; fails when `p` is not an existing directory. -/
def os_listdir (fs : FS) (p : String) : Except FolderError (List String) :=
  if os_path_isdir fs p then
    Except.ok (fs.filterMap (fun ke =>
      (childName? (pathKey p) ke.1).map (fun n => (⟨n⟩ : String))))
  else
    Except.error (FolderError.notFoundError p)

/-- All nonempty prefixes of a key, shortest first. -/
def keyPrefixList (k : List (List Char)) : List (List (List Char)) :=
  (List.range k.length).map (fun i => k.take (i + 1))

/-- Is this looked-up entry a regular file? -/
def entryIsFile : Option FSEntry → Bool
  | some (FSEntry.file _) => true
  | _ => false

/-- One step of the success path of `os.makedirs`: create a directory at
`q` unless something is already there (an existing ancestor directory is
skipped; the error cases are checked by `os_makedirs` before this runs). -/
def mkdirStep (acc : FS) (q : List (List Char)) : FS :=
  if (fsEntryAt acc q).isSome then acc else (q, FSEntry.dir) :: acc

/-- The success path of `os.makedirs` at the key level: create a directory
at every missing prefix of `k` (ancestors first). -/
def makedirsKey (fs : FS) (k : List (List Char)) : FS :=
  (keyPrefixList k).foldl mkdirStep fs

/-- Model of `os.makedirs`: fails with ENOTDIR when a strict ancestor of
the target is a regular file (the first attempted `mkdir` has a
non-directory parent, so nothing is created), fails with EEXIST when the
target itself already exists, and otherwise creates a directory at every
missing prefix. -/
def os_makedirs (fs : FS) (p : String) : Except FolderError FS :=
  if ∃ i < (pathKey p).length, 0 < i ∧ entryIsFile (fsEntryAt fs ((pathKey p).take i)) = true then
    Except.error (FolderError.notADirectoryError p)
  else if (fsEntryAt fs (pathKey p)).isSome then
    Except.error (FolderError.fileExistsError p)
  else
    Except.ok (makedirsKey fs (pathKey p))

/-- The success path of `shutil.rmtree` at the key level: drop the entry at
`k` and every entry below it. -/
def rmtreeKey (fs : FS) (k : List (List Char)) : FS :=
  fs.filter (fun ke => !keyStartsWith ke.1 k)

/-- Model of `shutil.rmtree`: deletes the directory tree rooted at `p`;
fails with ENOTDIR (deleting nothing) when `p` is a regular file, and with
ENOENT when it does not exist. -/
def shutil_rmtree (fs : FS) (p : String) : Except FolderError FS :=
  match fsEntryAt fs (pathKey p) with
  | some FSEntry.dir => Except.ok (rmtreeKey fs (pathKey p))
  | some (FSEntry.file _) => Except.error (FolderError.notADirectoryError p)
  | none => Except.error (FolderError.notFoundError p)

/-- Model of `shutil.copyfile`: fails when source and destination are the
same existing file (`shutil.Error`), when the source is missing (ENOENT)
or a directory (EISDIR), when the destination is a directory (EISDIR), or
when the destination's parent is a regular file (ENOTDIR) or absent
(ENOENT); otherwise overwrites the destination with a regular file holding
the source's contents. -/
def shutil_copyfile (fs : FS) (src dst : String) : Except FolderError FS :=
  if pathKey src = pathKey dst ∧ (fsEntryAt fs (pathKey src)).isSome then
    Except.error (FolderError.sameFileError src dst)
  else
    match fsEntryAt fs (pathKey src) with
    | some (FSEntry.file c) =>
      if fsEntryAt fs (pathKey dst) = some FSEntry.dir then
        Except.error (FolderError.isADirectoryError dst)
      else
        match fsEntryAt fs ((pathKey dst).dropLast) with
        | some FSEntry.dir => Except.ok (fsSet fs (pathKey dst) (FSEntry.file c))
        | some (FSEntry.file _) => Except.error (FolderError.notADirectoryError dst)
        | none => Except.error (FolderError.notFoundError dst)
    | some FSEntry.dir => Except.error (FolderError.isADirectoryError src)
    | none => Except.error (FolderError.notFoundError src)

/-- Model of `shutil.copytree` for a fresh destination (as the source
guarantees at its call sites): duplicate the subtree rooted at `src` under
`dst`. -/
def shutil_copytree (fs : FS) (src dst : String) : Except FolderError FS :=
  if os_path_isdir fs src then
    Except.ok ((fs.filterMap (fun ke =>
      if keyStartsWith ke.1 (pathKey src) then
        some (pathKey dst ++ ke.1.drop (pathKey src).length, ke.2)
      else none)) ++ fs)
  else
    Except.error (FolderError.notFoundError src)

/-- Model of `shutil.move` for a fresh destination: rename the subtree
rooted at `src` to `dst`. -/
def shutil_move (fs : FS) (src dst : String) : Except FolderError FS :=
  if (fsEntryAt fs (pathKey src)).isSome then
    Except.ok ((fs.filterMap (fun ke =>
      if keyStartsWith ke.1 (pathKey src) then
        some (pathKey dst ++ ke.1.drop (pathKey src).length, ke.2)
      else none)) ++ fs.filter (fun ke => !keyStartsWith ke.1 (pathKey src)))
  else
    Except.error (FolderError.notFoundError src)

/-- A token of a shell-glob pattern, as `fnmatch.translate` interprets it:
a literal character, `?`, `*`, or a (possibly negated) character class of
ranges. -/
inductive GlobTok where
  | lit (c : Char)
  | any1
  | star
  | cls (neg : Bool) (items : List (Char × Char))
  deriving DecidableEq, Repr

/-- Parse the body of a `[...]` class after the optional `!`: a list of
ranges (a single character `c` is the range `(c, c)`); `none` when the
class is unterminated.  A `-` directly before the closing `]` is literal. -/
def bracketItems : List Char → Option (List (Char × Char) × List Char)
  | [] => none
  | ']' :: rest => some ([], rest)
  | a :: '-' :: b :: rest =>
    if b = ']' then some ([(a, a), ('-', '-')], rest)
    else
      match bracketItems rest with
      | none => none
      | some (items, r) => some ((a, b) :: items, r)
  | a :: rest =>
    match bracketItems rest with
    | none => none
    | some (items, r) => some ((a, a) :: items, r)

/-- Parse a full `[...]` class body: leading `!` negates, and a `]` right
after that is a literal member. -/
def parseBracket (l : List Char) : Option (Bool × List (Char × Char) × List Char) :=
  let negAndRest : Bool × List Char :=
    match l with
    | '!' :: rest => (true, rest)
    | _ => (false, l)
  match negAndRest with
  | (neg, ']' :: rest) =>
    match bracketItems rest with
    | none => none
    | some (items, r) => some (neg, (']', ']') :: items, r)
  | (neg, l1) =>
    match bracketItems l1 with
    | none => none
    | some (items, r) => some (neg, items, r)

/-- Tokenize a glob pattern; an unterminated `[` is a literal character.
The fuel argument only makes the recursion structural: each step consumes
at least one pattern character, so fuel equal to the pattern length never
runs out. -/
def patToksF : Nat → List Char → List GlobTok
  | _, [] => []
  | 0, _ => []
  | fuel + 1, '*' :: ps => GlobTok.star :: patToksF fuel ps
  | fuel + 1, '?' :: ps => GlobTok.any1 :: patToksF fuel ps
  | fuel + 1, '[' :: ps =>
    match parseBracket ps with
    | some (neg, items, rest) => GlobTok.cls neg items :: patToksF fuel rest
    | none => GlobTok.lit '[' :: patToksF fuel ps
  | fuel + 1, c :: ps => GlobTok.lit c :: patToksF fuel ps

/-- Tokenize a glob pattern. -/
def patToks (l : List Char) : List GlobTok :=
  patToksF l.length l

/-- Does character `c` fall in one of the class ranges? -/
def inClass (items : List (Char × Char)) (c : Char) : Bool :=
  items.any (fun ab => decide (ab.1 ≤ c ∧ c ≤ ab.2))

/-- Match a token list against a character list, anchored at both ends
(`fnmatch` matches the whole name; `*`/`?` also match `.` and `/`).  The
fuel makes the `*` case structural: each step consumes a token or a
character, so `tokens + characters + 1` fuel never runs out. -/
def matchToksF : Nat → List GlobTok → List Char → Bool
  | _, [], s => s.isEmpty
  | 0, _ :: _, _ => false
  | fuel + 1, GlobTok.star :: ts, s =>
    matchToksF fuel ts s ||
      (match s with
       | [] => false
       | _ :: cs => matchToksF fuel (GlobTok.star :: ts) cs)
  | fuel + 1, GlobTok.any1 :: ts, s =>
    match s with
    | [] => false
    | _ :: cs => matchToksF fuel ts cs
  | fuel + 1, GlobTok.lit c :: ts, s =>
    match s with
    | [] => false
    | d :: cs => c = d && matchToksF fuel ts cs
  | fuel + 1, GlobTok.cls neg items :: ts, s =>
    match s with
    | [] => false
    | c :: cs => (inClass items c != neg) && matchToksF fuel ts cs

/-- Model of `fnmatch.fnmatch(fname, pattern)` on a POSIX system
(`normcase` is the identity there). -/
def fnmatch (fname pattern : String) : Bool :=
  let ts := patToks pattern.data
  matchToksF (ts.length + fname.data.length + 1) ts fname.data

example : fnmatch "report.txt" "*.txt" = true := by rfl
example : fnmatch "report.txt" "*.dat" = false := by rfl
example : fnmatch ".hidden" "[!.]*" = false := by rfl
example : fnmatch "data" "[!.]*" = true := by rfl
example : fnmatch "a7" "a[0-9]" = true := by rfl
example : fnmatch "ax" "a[0-9]" = false := by rfl
example : fnmatch "x" "?" = true := by rfl
example : fnmatch "" "*" = true := by rfl

/-- Translation of the `Folder.exists` method: `os.path.exists(self.abspath)`. -/
def Folder.exists (f : Folder) (fs : FS) : Bool :=
  os_path_exists fs f._abspath

/-- Translation of `Folder.create`: `os.makedirs(self.abspath)` unless the
folder already exists; a `makedirs` failure propagates with the filesystem
unchanged (nothing was created). -/
def Folder.create (f : Folder) (fs : FS) : Except (FolderError × FS) FS :=
  if Folder.exists f fs then Except.ok fs
  else
    match os_makedirs fs f._abspath with
    | Except.error e => Except.error (e, fs)
    | Except.ok fs2 => Except.ok fs2

/-- Translation of `Folder.erase`: remove the tree if it exists (no error
if it does not), then optionally recreate an empty directory.  A `rmtree`
failure (e.g. the path is a regular file) propagates with the filesystem
unchanged; a failure of the recreating `create` propagates with the
filesystem as it was at that point (the removal has already happened). -/
def Folder.erase (f : Folder) (create_empty_folder : Bool) (fs : FS) :
    Except (FolderError × FS) FS :=
  match (if Folder.exists f fs then shutil_rmtree fs f._abspath else Except.ok fs) with
  | Except.error e => Except.error (e, fs)
  | Except.ok fs1 =>
    if create_empty_folder then Folder.create f fs1 else Except.ok fs1

/-- Translation of `Folder.get_subfolder`: resolve the (possibly
`..`-containing) relative path against `self.abspath`, construct a new
`Folder` with the parent's limit (re-running the containment check), and
optionally create the directory.  Errors carry the filesystem at raise
time. -/
def Folder.get_subfolder (f : Folder) (subfolder : String) (create : Bool) (fs : FS) :
    Except (FolderError × FS) (Folder × FS) :=
  let dest_abs_dir := realpath (os_path_join f._abspath subfolder)
  match Folder.init dest_abs_dir (some f._folder_limit) with
  | Except.error e => Except.error (e, fs)
  | Except.ok new_folder =>
    if create then
      match Folder.create new_folder fs with
      | Except.error efs => Except.error efs
      | Except.ok fs2 => Except.ok (new_folder, fs2)
    else Except.ok (new_folder, fs)

/-- Translation of `Folder.get_content_list`: the direct children of
`self.abspath` whose name matches `pattern`, each paired with
`not os.path.isdir(...)`. -/
def Folder.get_content_list (f : Folder) (pattern : String) (fs : FS) :
    Except FolderError (List (String × Bool)) :=
  match os_listdir fs f._abspath with
  | Except.error e => Except.error e
  | Except.ok names =>
    Except.ok (names.filterMap (fun fname =>
      if fnmatch fname pattern then
        some (fname, !os_path_isdir fs (os_path_join f._abspath fname))
      else none))

/-- Translation of `Folder.insert_file`: default the destination name to
the source's basename, resolve it through `get_filename` (which may
raise), then copy the file and return the destination path.  Errors carry
the filesystem as it was when they were raised. -/
def Folder.insert_file (f : Folder) (src : String) (dest_name : Option String) (fs : FS) :
    Except (FolderError × FS) (String × FS) :=
  let filename := match dest_name with
    | none => os_path_basename src
    | some d => d
  match Folder.get_filename f filename with
  | Except.error e => Except.error (e, fs)
  | Except.ok dest_abs_path =>
    match shutil_copyfile fs src dest_abs_path with
    | Except.error e => Except.error (e, fs)
    | Except.ok fs2 => Except.ok (dest_abs_path, fs2)

/-- The tail of `Folder.replace_with_folder` after the overwrite check:
ensure the parent directory exists, then move or copy `srcdir` onto
`self.abspath`.  Each failing primitive propagates with the filesystem as
it stood when it was invoked. -/
def replaceTail (f : Folder) (srcdir : String) (move : Bool) (fs1 : FS) :
    Except (FolderError × FS) FS :=
  let pardir := os_path_dirname f._abspath
  match (if os_path_exists fs1 pardir then Except.ok fs1 else os_makedirs fs1 pardir) with
  | Except.error e => Except.error (e, fs1)
  | Except.ok fs2 =>
    if move then
      match shutil_move fs2 srcdir f._abspath with
      | Except.error e => Except.error (e, fs2)
      | Except.ok fs3 => Except.ok fs3
    else
      match shutil_copytree fs2 srcdir f._abspath with
      | Except.error e => Except.error (e, fs2)
      | Except.ok fs3 => Except.ok fs3

/-- Translation of `Folder.replace_with_folder`: with `overwrite` erase
first (an erase failure propagates); without it, raise on an existing
destination before touching anything; then create the parent directory if
needed and move or copy. -/
def Folder.replace_with_folder (f : Folder) (srcdir : String) (move overwrite : Bool)
    (fs : FS) : Except (FolderError × FS) FS :=
  if overwrite then
    match Folder.erase f false fs with
    | Except.error efs => Except.error efs
    | Except.ok fs1 => replaceTail f srcdir move fs1
  else if Folder.exists f fs then
    Except.error (FolderError.alreadyExistsError f._abspath, fs)
  else
    replaceTail f srcdir move fs

/-- A well-formed path segment as it can actually occur as a name on a
POSIX filesystem: nonempty, without `/`, and not the special names
`.`/`..`.  This is also exactly what `normSegs` outputs. -/
def cleanSeg (s : List Char) : Prop :=
  s ≠ [] ∧ '/' ∉ s ∧ s ≠ ['.'] ∧ s ≠ ['.', '.']

instance (s : List Char) : Decidable (cleanSeg s) := by
  unfold cleanSeg; infer_instance

/-- Well-formedness of the filesystem model, as holds for any state a real
filesystem can be in: keys are distinct, every key is a nonempty list of
well-formed segments, and every proper ancestor of a stored key is stored
as a directory. -/
def FSwf (fs : FS) : Prop :=
  (fs.map Prod.fst).Nodup ∧
  (∀ ke ∈ fs, ke.1 ≠ [] ∧ ∀ s ∈ ke.1, cleanSeg s) ∧
  (∀ ke ∈ fs, ∀ i < ke.1.length, 0 < i → fsGet fs (ke.1.take i) = some FSEntry.dir)

instance (fs : FS) : Decidable (FSwf fs) := by
  unfold FSwf; infer_instance

example : FSwf [([['a']], FSEntry.dir), ([['a'], ['x']], FSEntry.file "hi")] := by decide
example :
    Folder.get_content_list ⟨"/a", "/a"⟩ "*"
        [([['a']], FSEntry.dir), ([['a'], ['x']], FSEntry.file "hi"),
         ([['a'], ['y']], FSEntry.dir)]
      = Except.ok [("x", true), ("y", false)] := by rfl
example :
    Folder.erase ⟨"/a", "/a"⟩ true
        [([['a']], FSEntry.dir), ([['a'], ['x']], FSEntry.file "hi")]
      = Except.ok [([['a']], FSEntry.dir)] := by rfl
example :
    Folder.erase ⟨"/a/x", "/a"⟩ true
        [([['a']], FSEntry.dir), ([['a'], ['x']], FSEntry.file "hi")]
      = Except.error (FolderError.notADirectoryError "/a/x",
          [([['a']], FSEntry.dir), ([['a'], ['x']], FSEntry.file "hi")]) := by rfl
example :
    Folder.create ⟨"/a/b", "/a"⟩ [([['a']], FSEntry.dir)]
      = Except.ok [([['a'], ['b']], FSEntry.dir), ([['a']], FSEntry.dir)] := by rfl
example :
    Folder.create ⟨"/a/b", "/a"⟩ [([['a']], FSEntry.file "f")]
      = Except.error (FolderError.notADirectoryError "/a/b",
          [([['a']], FSEntry.file "f")]) := by rfl
example :
    shutil_copyfile [([['a']], FSEntry.file "f")] "/a" "/a"
      = Except.error (FolderError.sameFileError "/a" "/a") := by rfl
example :
    shutil_copyfile [([['s']], FSEntry.file "f")] "/s" "/a/t"
      = Except.error (FolderError.notFoundError "/a/t") := by rfl
example :
    Folder.insert_file ⟨"/a", "/a"⟩ "/s/t.txt" none
        [([['a']], FSEntry.dir), ([['s']], FSEntry.dir),
         ([['s'], ['t', '.', 't', 'x', 't']], FSEntry.file "hi")]
      = Except.ok ("/a/t.txt",
          [([['a'], ['t', '.', 't', 'x', 't']], FSEntry.file "hi"),
           ([['a']], FSEntry.dir), ([['s']], FSEntry.dir),
           ([['s'], ['t', '.', 't', 'x', 't']], FSEntry.file "hi")]) := by rfl

theorem splitOnSlash_ne_nil (l : List Char) : splitOnSlash l ≠ [] := by
  cases l with
  | nil => simp [splitOnSlash]
  | cons c cs =>
    simp only [splitOnSlash]
    cases h : splitOnSlash cs with
    | nil => simp
    | cons p ps => by_cases hc : c = '/' <;> simp [hc]

theorem splitOnSlash_append (l m : List Char) :
    splitOnSlash (l ++ '/' :: m) = splitOnSlash l ++ splitOnSlash m := by
  induction l with
  | nil =>
    cases h : splitOnSlash m with
    | nil => exact absurd h (splitOnSlash_ne_nil m)
    | cons p ps => simp [splitOnSlash, h]
  | cons c cs ih =>
    cases h : splitOnSlash cs with
    | nil => exact absurd h (splitOnSlash_ne_nil cs)
    | cons p ps =>
      by_cases hc : c = '/' <;>
        simp [splitOnSlash, ih, h, hc]

theorem mem_splitOnSlash_no_slash {l : List Char} :
    ∀ {s : List Char}, s ∈ splitOnSlash l → '/' ∉ s := by
  induction l with
  | nil =>
    intro s h
    simp [splitOnSlash] at h
    subst h; simp
  | cons c cs ih =>
    intro s h
    simp only [splitOnSlash] at h
    cases hs : splitOnSlash cs with
    | nil => exact absurd hs (splitOnSlash_ne_nil cs)
    | cons p ps =>
      rw [hs] at h
      dsimp only at h
      have hp : p ∈ splitOnSlash cs := by rw [hs]; exact List.mem_cons_self p ps
      by_cases hc : c = '/'
      · rw [if_pos hc] at h
        rcases List.mem_cons.mp h with h1 | h1
        · subst h1; simp
        · exact ih (by rw [hs]; exact h1)
      · rw [if_neg hc] at h
        rcases List.mem_cons.mp h with h1 | h1
        · subst h1
          intro hm
          rcases List.mem_cons.mp hm with h2 | h2
          · exact hc h2.symm
          · exact ih hp h2
        · exact ih (by rw [hs]; exact List.mem_cons_of_mem p h1)

theorem no_slash_splitOnSlash {l : List Char} (h : '/' ∉ l) : splitOnSlash l = [l] := by
  induction l with
  | nil => simp [splitOnSlash]
  | cons c cs ih =>
    have hc : ¬(c = '/') := fun hcc => h (by rw [hcc]; exact List.mem_cons_self '/' cs)
    have hcs : '/' ∉ cs := fun hm => h (List.mem_cons_of_mem c hm)
    simp [splitOnSlash, ih hcs, hc]

theorem segsOf_append (l m : List Char) :
    segsOf (l ++ '/' :: m) = segsOf l ++ segsOf m := by
  simp [segsOf, splitOnSlash_append]

theorem segsOf_slash_cons (m : List Char) : segsOf ('/' :: m) = segsOf m := by
  have : ('/' :: m) = [] ++ '/' :: m := rfl
  rw [this, segsOf_append]
  simp [segsOf, splitOnSlash]

theorem segsOf_single {s : List Char} (h1 : s ≠ []) (h2 : '/' ∉ s) :
    segsOf s = [s] := by
  simp [segsOf, no_slash_splitOnSlash h2, h1]

theorem segsOf_nil : segsOf [] = [] := by simp [segsOf, splitOnSlash]

theorem mem_segsOf {l s : List Char} (h : s ∈ segsOf l) : s ≠ [] ∧ '/' ∉ s := by
  simp only [segsOf, List.mem_filter] at h
  refine ⟨?_, mem_splitOnSlash_no_slash h.1⟩
  intro hnil
  subst hnil
  simp at h

theorem mem_normSegs {l : List (List Char)} :
    ∀ {acc : List (List Char)},
      (∀ s ∈ l, s ≠ [] ∧ '/' ∉ s) → (∀ s ∈ acc, cleanSeg s) →
      ∀ s ∈ normSegs acc l, cleanSeg s := by
  induction l with
  | nil =>
    intro acc _ hacc s hs
    simp only [normSegs, List.mem_reverse] at hs
    exact hacc s hs
  | cons t rest ih =>
    intro acc hl hacc s hs
    have hrest : ∀ s ∈ rest, s ≠ [] ∧ '/' ∉ s :=
      fun s hm => hl s (List.mem_cons_of_mem t hm)
    have ht := hl t (List.mem_cons_self t rest)
    simp only [normSegs] at hs
    by_cases h1 : t = ['.']
    · rw [if_pos h1] at hs
      exact ih hrest hacc s hs
    · rw [if_neg h1] at hs
      by_cases h2 : t = ['.', '.']
      · rw [if_pos h2] at hs
        exact ih hrest (fun s hm => hacc s (List.tail_subset acc hm)) s hs
      · rw [if_neg h2] at hs
        refine ih hrest ?_ s hs
        intro s hm
        rcases List.mem_cons.mp hm with h3 | h3
        · subst h3; exact ⟨ht.1, ht.2, h1, h2⟩
        · exact hacc s h3

theorem normSegs_no_special {l : List (List Char)} :
    ∀ {acc : List (List Char)},
      (∀ s ∈ l, s ≠ ['.'] ∧ s ≠ ['.', '.']) →
      normSegs acc l = acc.reverse ++ l := by
  induction l with
  | nil => intro acc _; simp [normSegs]
  | cons t rest ih =>
    intro acc hl
    have ht := hl t (List.mem_cons_self t rest)
    have hrest : ∀ s ∈ rest, s ≠ ['.'] ∧ s ≠ ['.', '.'] :=
      fun s hm => hl s (List.mem_cons_of_mem t hm)
    simp only [normSegs, if_neg ht.1, if_neg ht.2]
    rw [ih hrest]
    simp

theorem normSegs_append (xs ys : List (List Char)) :
    ∀ acc, normSegs acc (xs ++ ys) = normSegs (normSegs acc xs).reverse ys := by
  induction xs with
  | nil => intro acc; simp [normSegs]
  | cons t rest ih =>
    intro acc
    simp only [List.cons_append, normSegs]
    by_cases h1 : t = ['.']
    · simp only [if_pos h1]; exact ih acc
    · simp only [if_neg h1]
      by_cases h2 : t = ['.', '.']
      · simp only [if_pos h2]; exact ih acc.tail
      · simp only [if_neg h2]; exact ih (t :: acc)

theorem joinSegs_roundtrip {ss : List (List Char)} :
    (∀ s ∈ ss, s ≠ [] ∧ '/' ∉ s) → segsOf (joinSegs ss) = ss := by
  induction ss with
  | nil => intro _; simp [joinSegs, segsOf_nil]
  | cons s rest ih =>
    intro h
    have hs := h s (List.mem_cons_self s rest)
    cases rest with
    | nil =>
      show segsOf s = [s]
      exact segsOf_single hs.1 hs.2
    | cons t r =>
      have hrest : ∀ u ∈ t :: r, u ≠ [] ∧ '/' ∉ u :=
        fun u hm => h u (List.mem_cons_of_mem s hm)
      show segsOf (s ++ '/' :: joinSegs (t :: r)) = s :: t :: r
      rw [segsOf_append, segsOf_single hs.1 hs.2, ih hrest]
      rfl

theorem pathKeyData_clean {l : List Char} :
    ∀ s ∈ pathKeyData l, cleanSeg s := by
  intro s hs
  exact mem_normSegs (fun u hm => mem_segsOf hm) (by intro u hm; simp at hm) s hs

theorem realpathData_idem (l : List Char) :
    realpathData (realpathData l) = realpathData l := by
  have hclean : ∀ s ∈ pathKeyData l, cleanSeg s := pathKeyData_clean
  have h1 : segsOf (realpathData l) = pathKeyData l := by
    show segsOf ('/' :: joinSegs (pathKeyData l)) = pathKeyData l
    rw [segsOf_slash_cons]
    exact joinSegs_roundtrip (fun s hm => ⟨(hclean s hm).1, (hclean s hm).2.1⟩)
  show ('/' :: joinSegs (normSegs [] (segsOf (realpathData l)))) = realpathData l
  rw [h1]
  rw [normSegs_no_special (fun s hm => ⟨(hclean s hm).2.2.1, (hclean s hm).2.2.2⟩)]
  rfl

theorem realpath_idem (s : String) : realpath (realpath s) = realpath s := by
  show (⟨realpathData (realpath s).data⟩ : String) = ⟨realpathData s.data⟩
  have : (realpath s).data = realpathData s.data := rfl
  rw [this, realpathData_idem]

theorem lcpData_self (l : List Char) : lcpData l l = l := by
  induction l with
  | nil => rfl
  | cons c cs ih => simp [lcpData, ih]

theorem commonprefix2_self (s : String) : commonprefix2 s s = s := by
  show (⟨lcpData s.data s.data⟩ : String) = s
  rw [lcpData_self]

theorem endsWithSlash_decomp {l : List Char} (h : endsWithSlash l = true) :
    ∃ l', l = l' ++ ['/'] := by
  induction l with
  | nil => simp [endsWithSlash] at h
  | cons c cs ih =>
    cases cs with
    | nil =>
      have : c = '/' := by simpa [endsWithSlash] using h
      exact ⟨[], by simp [this]⟩
    | cons d ds =>
      have h' : endsWithSlash (d :: ds) = true := by simpa [endsWithSlash] using h
      obtain ⟨l', hl'⟩ := ih h'
      exact ⟨c :: l', by simp [hl']⟩

theorem pathKeyData_append_seg (l n : List Char) (hn : cleanSeg n) :
    pathKeyData (l ++ '/' :: n) = pathKeyData l ++ [n] := by
  unfold pathKeyData
  rw [segsOf_append, segsOf_single hn.1 hn.2.1, normSegs_append]
  rw [normSegs_no_special (by
    intro s hm
    rw [List.mem_singleton] at hm
    subst hm
    exact ⟨hn.2.2.1, hn.2.2.2⟩)]
  simp

theorem pathKeyData_append_slash (l : List Char) :
    pathKeyData (l ++ ['/']) = pathKeyData l := by
  unfold pathKeyData
  have : (l ++ ['/']) = l ++ '/' :: [] := rfl
  rw [this, segsOf_append, segsOf_nil, List.append_nil]

theorem pathKey_join_child (a : String) (n : List Char) (hn : cleanSeg n) :
    pathKey (os_path_join a ⟨n⟩) = pathKey a ++ [n] := by
  have hslash : ¬((⟨n⟩ : String).data.head? = some '/') := by
    cases n with
    | nil => exact absurd rfl hn.1
    | cons c cs =>
      have : c ≠ '/' := by
        intro hc
        exact hn.2.1 (by rw [← hc]; exact List.mem_cons_self c cs)
      simp only [List.head?]
      intro hsome
      exact this (Option.some.inj hsome)
  unfold os_path_join
  rw [if_neg hslash]
  by_cases hempty : a.data.isEmpty = true
  · have ha : a.data = [] := by
      cases hd : a.data with
      | nil => rfl
      | cons x xs => rw [hd] at hempty; simp [List.isEmpty] at hempty
    rw [if_pos (by rw [ha]; simp)]
    show pathKeyData (a.data ++ n) = pathKey a ++ [n]
    rw [ha]
    show pathKeyData n = pathKey a ++ [n]
    have h1 : pathKeyData n = [n] := by
      unfold pathKeyData
      rw [segsOf_single hn.1 hn.2.1]
      rw [normSegs_no_special (by
        intro s hm
        rw [List.mem_singleton] at hm
        subst hm
        exact ⟨hn.2.2.1, hn.2.2.2⟩)]
      rfl
    have h2 : pathKey a = [] := by
      show pathKeyData a.data = []
      rw [ha]
      rfl
    rw [h1, h2]
    rfl
  · by_cases hsl : endsWithSlash a.data = true
    · rw [if_pos (by rw [hsl]; simp)]
      obtain ⟨l', hl'⟩ := endsWithSlash_decomp hsl
      show pathKeyData (a.data ++ n) = pathKey a ++ [n]
      have hkey : pathKey a = pathKeyData l' := by
        show pathKeyData a.data = pathKeyData l'
        rw [hl', pathKeyData_append_slash]
      rw [hl']
      have hassoc : (l' ++ ['/']) ++ n = l' ++ '/' :: n := by simp
      rw [hassoc, pathKeyData_append_seg l' n hn, hkey]
    · rw [if_neg (by
        intro hor
        rcases Bool.or_eq_true_iff.mp hor with h1 | h1
        · exact hempty h1
        · exact hsl h1)]
      show pathKeyData (a.data ++ '/' :: n) = pathKey a ++ [n]
      exact pathKeyData_append_seg a.data n hn

theorem keyStartsWith_nil_right (k : List (List Char)) :
    keyStartsWith k [] = true := by
  cases k <;> rfl

theorem keyStartsWith_append (p r : List (List Char)) :
    keyStartsWith (p ++ r) p = true := by
  induction p with
  | nil => exact keyStartsWith_nil_right r
  | cons a as ih => simp [keyStartsWith, ih]

theorem keyStartsWith_exists {k p : List (List Char)}
    (h : keyStartsWith k p = true) : ∃ r, k = p ++ r := by
  induction p generalizing k with
  | nil => exact ⟨k, rfl⟩
  | cons a as ih =>
    cases k with
    | nil => simp [keyStartsWith] at h
    | cons b bs =>
      simp only [keyStartsWith] at h
      by_cases hab : b = a
      · rw [if_pos hab] at h
        obtain ⟨r, hr⟩ := ih h
        exact ⟨r, by rw [hab, hr]; rfl⟩
      · rw [if_neg hab] at h
        simp at h

theorem fsGet_isSome_of_mem {fs : FS} {k : List (List Char)} {e : FSEntry}
    (h : (k, e) ∈ fs) : (fsGet fs k).isSome := by
  induction fs with
  | nil => simp at h
  | cons ke rest ih =>
    obtain ⟨k', e'⟩ := ke
    rcases List.mem_cons.mp h with h1 | h1
    · have : k' = k := by injection h1.symm
      simp [fsGet, this]
    · by_cases hk : k' = k
      · simp [fsGet, hk]
      · simpa [fsGet, hk] using ih h1

theorem fsGet_of_mem_nodup {fs : FS} {k : List (List Char)} {e : FSEntry}
    (hnd : (fs.map Prod.fst).Nodup) (h : (k, e) ∈ fs) : fsGet fs k = some e := by
  induction fs with
  | nil => simp at h
  | cons ke rest ih =>
    obtain ⟨k', e'⟩ := ke
    rw [List.map_cons, List.nodup_cons] at hnd
    rcases List.mem_cons.mp h with h1 | h1
    · obtain ⟨hk, he⟩ : k = k' ∧ e = e' := by
        constructor <;> injection h1
      subst hk; subst he
      simp [fsGet]
    · have hk : k' ≠ k := by
        intro hkk
        exact hnd.1 (hkk ▸ (List.mem_map.mpr ⟨(k, e), h1, rfl⟩))
      simpa [fsGet, hk] using ih hnd.2 h1

theorem fsGet_filter_none {fs : FS} {k : List (List Char)}
    (pr : List (List Char) × FSEntry → Bool)
    (h : ∀ e, pr (k, e) = false) : fsGet (fs.filter pr) k = none := by
  induction fs with
  | nil => rfl
  | cons ke rest ih =>
    obtain ⟨k', e'⟩ := ke
    by_cases hp : pr (k', e') = true
    · rw [List.filter_cons_of_pos hp]
      have hk : k' ≠ k := by
        intro hkk
        rw [hkk, h e'] at hp
        exact Bool.false_ne_true hp
      simpa [fsGet, hk] using ih
    · rw [List.filter_cons_of_neg hp]
      exact ih

theorem fsGet_rmtreeKey_under {fs : FS} {root k : List (List Char)}
    (h : keyStartsWith k root = true) :
    fsGet (rmtreeKey fs root) k = none := by
  apply fsGet_filter_none
  intro e
  simp [h]

theorem fsGet_filter_eq_of_pred_true {fs : FS} {k : List (List Char)}
    (pr : List (List Char) × FSEntry → Bool)
    (h : ∀ e, pr (k, e) = true) : fsGet (fs.filter pr) k = fsGet fs k := by
  induction fs with
  | nil => rfl
  | cons ke rest ih =>
    obtain ⟨k', e'⟩ := ke
    by_cases hp : pr (k', e') = true
    · rw [List.filter_cons_of_pos hp]
      by_cases hk : k' = k
      · simp [fsGet, hk]
      · simpa [fsGet, hk] using ih
    · rw [List.filter_cons_of_neg hp]
      have hk : k' ≠ k := by
        intro hkk
        rw [hkk, h e'] at hp
        exact hp rfl
      rw [ih]
      simp [fsGet, hk]

theorem keyStartsWith_false_of_shorter {k p : List (List Char)}
    (h : k.length < p.length) : keyStartsWith k p = false := by
  induction p generalizing k with
  | nil => simp at h
  | cons b bs ih =>
    cases k with
    | nil => rfl
    | cons a as =>
      simp only [keyStartsWith]
      by_cases hab : a = b
      · rw [if_pos hab]
        exact ih (by simpa using h)
      · rw [if_neg hab]

theorem fsGet_rmtreeKey_not_under {fs : FS} {root k : List (List Char)}
    (h : keyStartsWith k root = false) :
    fsGet (rmtreeKey fs root) k = fsGet fs k := by
  apply fsGet_filter_eq_of_pred_true
  intro e
  simp [h]

theorem mkdirStep_get_some {acc : FS} {k : List (List Char)} {v : FSEntry}
    (h : fsGet acc k = some v) (q : List (List Char)) :
    fsGet (mkdirStep acc q) k = some v := by
  unfold mkdirStep
  by_cases hq : (fsEntryAt acc q).isSome = true
  · rw [if_pos hq]; exact h
  · rw [if_neg hq]
    have hqk : q ≠ k := by
      intro hqk
      subst hqk
      unfold fsEntryAt at hq
      by_cases hnil : q = []
      · rw [if_pos hnil] at hq; simp at hq
      · rw [if_neg hnil, h] at hq; simp at hq
    simp [fsGet, hqk, h]

theorem foldl_mkdirStep_get_some {l : List (List (List Char))} {k : List (List Char)}
    {v : FSEntry} :
    ∀ {fs : FS}, fsGet fs k = some v → fsGet (l.foldl mkdirStep fs) k = some v := by
  induction l with
  | nil => intro fs h; exact h
  | cons q rest ih =>
    intro fs h
    exact ih (mkdirStep_get_some h q)

theorem mkdirStep_get_none {acc : FS} {k q : List (List Char)}
    (h : fsGet acc k = none) (hq : q ≠ k) :
    fsGet (mkdirStep acc q) k = none := by
  unfold mkdirStep
  by_cases hs : (fsEntryAt acc q).isSome = true
  · rw [if_pos hs]; exact h
  · rw [if_neg hs]
    simpa [fsGet, hq] using h

theorem foldl_mkdirStep_get_none {l : List (List (List Char))} {k : List (List Char)}
    (hl : ∀ q ∈ l, q ≠ k) :
    ∀ {fs : FS}, fsGet fs k = none → fsGet (l.foldl mkdirStep fs) k = none := by
  induction l with
  | nil => intro fs h; exact h
  | cons q rest ih =>
    intro fs h
    exact ih (fun q' hq' => hl q' (List.mem_cons_of_mem q hq'))
      (mkdirStep_get_none h (hl q (List.mem_cons_self q rest)))

theorem mem_foldl_mkdirStep {l : List (List (List Char))}
    {ke : List (List Char) × FSEntry} :
    ∀ {fs : FS}, ke ∈ l.foldl mkdirStep fs → ke ∈ fs ∨ (ke.1 ∈ l ∧ ke.2 = FSEntry.dir) := by
  induction l with
  | nil => intro fs h; exact Or.inl h
  | cons q rest ih =>
    intro fs h
    rcases ih h with h1 | h1
    · unfold mkdirStep at h1
      by_cases hs : (fsEntryAt fs q).isSome = true
      · rw [if_pos hs] at h1; exact Or.inl h1
      · rw [if_neg hs] at h1
        rcases List.mem_cons.mp h1 with h2 | h2
        · right
          constructor
          · rw [h2]; exact List.mem_cons_self q rest
          · rw [h2]
        · exact Or.inl h2
    · exact Or.inr ⟨List.mem_cons_of_mem q h1.1, h1.2⟩

theorem mem_keyPrefixList_length {k : List (List Char)} {q : List (List Char)}
    (h : q ∈ keyPrefixList k) : q.length ≤ k.length := by
  simp only [keyPrefixList, List.mem_map, List.mem_range] at h
  obtain ⟨i, hi, hq⟩ := h
  rw [← hq, List.length_take]
  omega

theorem take_append_self (p r : List (List Char)) : (p ++ r).take p.length = p := by
  induction p with
  | nil => rfl
  | cons a as ih => simp [ih]

theorem mkdirStep_of_none {acc : FS} {q : List (List Char)}
    (h : fsEntryAt acc q = none) : mkdirStep acc q = (q, FSEntry.dir) :: acc := by
  unfold mkdirStep
  rw [h]
  simp

theorem makedirsKey_target {fs : FS} {k : List (List Char)}
    (hnone : fsGet fs k = none) (hk : k ≠ []) :
    fsGet (makedirsKey fs k) k = some FSEntry.dir := by
  obtain ⟨m, hm⟩ : ∃ m, k.length = m + 1 := by
    cases hlen : k.length with
    | zero => exact absurd (List.length_eq_zero.mp hlen) hk
    | succ m => exact ⟨m, rfl⟩
  have htake : k.take (m + 1) = k := List.take_of_length_le (by omega)
  have hsplit : keyPrefixList k = (List.range m).map (fun i => k.take (i + 1)) ++ [k] := by
    unfold keyPrefixList
    rw [hm, List.range_succ, List.map_append]
    simp [htake]
  unfold makedirsKey
  rw [hsplit, List.foldl_append]
  have hpre : ∀ q ∈ (List.range m).map (fun i => k.take (i + 1)), q ≠ k := by
    intro q hq
    simp only [List.mem_map, List.mem_range] at hq
    obtain ⟨i, hi, hqeq⟩ := hq
    intro hqk
    rw [← hqeq] at hqk
    have : (k.take (i + 1)).length = i + 1 := by
      rw [List.length_take]; omega
    rw [hqk] at this
    omega
  have hnone' : fsGet (((List.range m).map (fun i => k.take (i + 1))).foldl
      mkdirStep fs) k = none :=
    foldl_mkdirStep_get_none hpre hnone
  have hent : fsEntryAt (((List.range m).map (fun i => k.take (i + 1))).foldl
      mkdirStep fs) k = none := by
    unfold fsEntryAt
    rw [if_neg hk]
    exact hnone'
  simp only [List.foldl_cons, List.foldl_nil]
  rw [mkdirStep_of_none hent]
  simp [fsGet]

theorem no_descendant_of_none {fs : FS} {key : List (List Char)}
    (hwf : FSwf fs) (hkey : key ≠ []) (hnone : fsGet fs key = none) :
    ∀ k' e, (k', e) ∈ fs → keyStartsWith k' key = false := by
  intro k' e hmem
  by_contra hsw
  rw [Bool.not_eq_false] at hsw
  obtain ⟨r, hr⟩ := keyStartsWith_exists hsw
  cases r with
  | nil =>
    rw [List.append_nil] at hr
    subst hr
    have hsome := fsGet_isSome_of_mem hmem
    rw [hnone] at hsome
    simp at hsome
  | cons s rs =>
    have hlt : key.length < k'.length := by
      rw [hr, List.length_append]
      simp
    have hpos : 0 < key.length := List.length_pos.mpr hkey
    have := hwf.2.2 (k', e) hmem key.length hlt hpos
    rw [hr, take_append_self] at this
    rw [hnone] at this
    exact absurd this (by simp)

theorem keyStartsWith_refl (k : List (List Char)) : keyStartsWith k k = true := by
  have := keyStartsWith_append k []
  rwa [List.append_nil] at this

theorem not_mem_rmtreeKey_under {fs : FS} {root k : List (List Char)} {e : FSEntry}
    (h : keyStartsWith k root = true) : (k, e) ∉ rmtreeKey fs root := by
  intro hmem
  unfold rmtreeKey at hmem
  have hpred := (List.mem_filter.mp hmem).2
  rw [h] at hpred
  simp at hpred

theorem not_mem_makedirs_child {fs1 : FS} {key : List (List Char)} {n : List Char}
    {e : FSEntry} (hfs1 : (key ++ [n], e) ∉ fs1) :
    (key ++ [n], e) ∉ makedirsKey fs1 key := by
  intro hmem
  unfold makedirsKey at hmem
  rcases mem_foldl_mkdirStep hmem with h1 | h1
  · exact hfs1 h1
  · have hlen := mem_keyPrefixList_length h1.1
    rw [List.length_append] at hlen
    simp at hlen

theorem exists_false_key_facts {f : Folder} {fs : FS} (h : Folder.exists f fs = false) :
    pathKey f._abspath ≠ [] ∧ fsGet fs (pathKey f._abspath) = none := by
  unfold Folder.exists os_path_exists fsEntryAt at h
  constructor
  · intro hnil
    rw [if_pos hnil] at h
    simp at h
  · by_cases hnil : pathKey f._abspath = []
    · rw [if_pos hnil] at h; simp at h
    · rw [if_neg hnil] at h
      cases hg : fsGet fs (pathKey f._abspath) with
      | none => rfl
      | some v => rw [hg] at h; simp at h

theorem create_error_state {f : Folder} {fs fsE : FS} {e : FolderError}
    (h : Folder.create f fs = Except.error (e, fsE)) : fsE = fs := by
  unfold Folder.create at h
  by_cases hx : Folder.exists f fs = true
  · rw [if_pos hx] at h
    exact absurd h (by simp)
  · rw [if_neg hx] at h
    cases hmk : os_makedirs fs f._abspath with
    | error e2 =>
      rw [hmk] at h
      dsimp only at h
      have hpair : (e2, fs) = (e, fsE) := by
        injection h
      exact (congrArg Prod.snd hpair).symm
    | ok fs2 =>
      rw [hmk] at h
      exact absurd h (by simp)

theorem create_ok_of_clean {f : Folder} {fs : FS}
    (hx : Folder.exists f fs = false)
    (hchain : ∀ i, 0 < i → i < (pathKey f._abspath).length →
      entryIsFile (fsEntryAt fs ((pathKey f._abspath).take i)) = false) :
    Folder.create f fs = Except.ok (makedirsKey fs (pathKey f._abspath)) := by
  unfold Folder.create
  rw [if_neg (by rw [hx]; simp)]
  unfold os_makedirs
  rw [if_neg (by
    rintro ⟨i, hilt, hipos, hfile⟩
    rw [hchain i hipos hilt] at hfile
    exact absurd hfile (by simp))]
  rw [if_neg (by
    have hx2 : (fsEntryAt fs (pathKey f._abspath)).isSome = false := hx
    rw [hx2]
    simp)]

theorem create_ok_exists {f : Folder} {fs fs2 : FS}
    (h : Folder.create f fs = Except.ok fs2) : Folder.exists f fs2 = true := by
  unfold Folder.create at h
  by_cases hx : Folder.exists f fs = true
  · rw [if_pos hx] at h
    have heq : fs = fs2 := Except.ok.inj h
    rw [← heq]
    exact hx
  · rw [if_neg hx] at h
    have hx' : Folder.exists f fs = false := by
      revert hx
      cases Folder.exists f fs <;> simp
    obtain ⟨hkey, hnone⟩ := exists_false_key_facts hx'
    cases hmk : os_makedirs fs f._abspath with
    | error e2 =>
      rw [hmk] at h
      exact absurd h (by simp)
    | ok fs3 =>
      rw [hmk] at h
      dsimp only at h
      have hfs : fs3 = fs2 := Except.ok.inj h
      unfold os_makedirs at hmk
      by_cases hi : ∃ i < (pathKey f._abspath).length,
          0 < i ∧ entryIsFile (fsEntryAt fs ((pathKey f._abspath).take i)) = true
      · rw [if_pos hi] at hmk
        exact absurd hmk (by simp)
      · rw [if_neg hi] at hmk
        by_cases hl : (fsEntryAt fs (pathKey f._abspath)).isSome = true
        · rw [if_pos hl] at hmk
          exact absurd hmk (by simp)
        · rw [if_neg hl] at hmk
          have hmkd : makedirsKey fs (pathKey f._abspath) = fs3 := Except.ok.inj hmk
          rw [← hfs, ← hmkd]
          unfold Folder.exists os_path_exists fsEntryAt
          rw [if_neg hkey, makedirsKey_target hnone hkey]
          rfl

/-- C1: the claim states that constructing with boundary `/a/b` and
candidate `/a/b2/c` must fail with `ContainmentError`.  The code instead
ACCEPTS it: `os.path.commonprefix(['/a/b2/c', '/a/b'])` is the
character-wise prefix `/a/b`, which equals the limit, even though
`/a/b2/c` is not a path-segment-wise descendant of `/a/b` (second
conjunct).  This theorem evaluates the translated constructor at the
claim's own regression input, exhibiting the divergence. -/
theorem C1_prefix_bug_eval :
    Folder.init "/a/b2/c" (some "/a/b") = Except.ok ⟨"/a/b2/c", "/a/b"⟩
    ∧ segContained (realpath "/a/b2/c") (realpath "/a/b") = false :=
  ⟨rfl, rfl⟩

/-- C2: the claim states that every `get_subfolder` resolution falling
outside the boundary fails with `ContainmentError`.  Starting from the
folder `/a/b` (its own boundary), the relative path `../b2/c` resolves to
`/a/b2/c`, which is outside the boundary segment-wise (third conjunct),
yet the call SUCCEEDS because the containment re-check inherits the
character-prefix bug.  This theorem evaluates the translated code at that
failing input. -/
theorem C2_subfolder_escape_eval :
    Folder.init "/a/b" none = Except.ok ⟨"/a/b", "/a/b"⟩
    ∧ Folder.get_subfolder ⟨"/a/b", "/a/b"⟩ "../b2/c" false []
        = Except.ok (⟨"/a/b2/c", "/a/b"⟩, [])
    ∧ segContained (realpath "/a/b2/c") (realpath "/a/b") = false :=
  ⟨rfl, rfl, rfl⟩

/-- C3: the claim states `get_filename` rejects names that are empty,
contain a separator, or are `.`/`..`.  The code's check
`os.path.split(join(abspath, name)) == (abspath, name)` only rejects names
containing a separator: `".."`, `""` and `"."` all pass it (the first
three conjuncts evaluate the code at those inputs — `".."` even yields a
path OUTSIDE the folder), while a separator-containing name is indeed
rejected (fourth conjunct). -/
theorem C3_get_filename_special_names_eval :
    Folder.get_filename ⟨"/a/b", "/a/b"⟩ ".." = Except.ok "/a/b/.."
    ∧ Folder.get_filename ⟨"/a/b", "/a/b"⟩ "" = Except.ok "/a/b/"
    ∧ Folder.get_filename ⟨"/a/b", "/a/b"⟩ "." = Except.ok "/a/b/."
    ∧ Folder.get_filename ⟨"/a/b", "/a/b"⟩ "x/y"
        = Except.error (FolderError.invalidNameError "x/y") :=
  ⟨rfl, rfl, rfl, rfl⟩

/-- C4: `replace_with_folder` with `overwrite = false` on an existing
destination fails with the already-exists error and leaves the filesystem
(both the source tree and the destination) exactly as it was: the raise
happens before any mutation, so the error carries the unchanged state. -/
theorem C4_replace_existing_fails (f : Folder) (srcdir : String) (move : Bool)
    (fs : FS) (h : Folder.exists f fs = true) :
    Folder.replace_with_folder f srcdir move false fs
      = Except.error (FolderError.alreadyExistsError f._abspath, fs) := by
  simp [Folder.replace_with_folder, h]

theorem C4_witness :
    Folder.replace_with_folder ⟨"/a/b", "/a/b"⟩ "/src" false false
        [([['a'], ['b']], FSEntry.dir)]
      = Except.error (FolderError.alreadyExistsError "/a/b",
          [([['a'], ['b']], FSEntry.dir)]) :=
  C4_replace_existing_fails ⟨"/a/b", "/a/b"⟩ "/src" false
    [([['a'], ['b']], FSEntry.dir)] rfl

/-- C7: `create` is idempotent: after a successful `create` the directory
exists, so calling `create` again on the resulting state is a raise-free
no-op returning the identical filesystem; and a failed `create` (the
`makedirs` error propagating) mutates nothing, so repeating it changes
nothing either. -/
theorem C7_create_idempotent (f : Folder) (fs : FS) :
    (∀ fs2, Folder.create f fs = Except.ok fs2 →
      Folder.create f fs2 = Except.ok fs2)
    ∧ ∀ e fsE, Folder.create f fs = Except.error (e, fsE) → fsE = fs := by
  constructor
  · intro fs2 h
    have hx := create_ok_exists h
    unfold Folder.create
    rw [if_pos hx]
  · intro e fsE h
    exact create_error_state h

theorem C7_witness :
    Folder.create ⟨"/a/b", "/a/b"⟩
        [([['a'], ['b']], FSEntry.dir), ([['a']], FSEntry.dir)]
      = Except.ok [([['a'], ['b']], FSEntry.dir), ([['a']], FSEntry.dir)] :=
  (C7_create_idempotent ⟨"/a/b", "/a/b"⟩ []).1
    [([['a'], ['b']], FSEntry.dir), ([['a']], FSEntry.dir)] rfl

/-- C9: when the boundary argument is omitted, construction can never
fail: the limit defaults to the canonicalized path itself, the
canonicalization is idempotent, and a string is always its own common
prefix, so the check passes and `absolutePath = boundaryPath` in the
result. -/
theorem C9_default_boundary_total (path : String) :
    Folder.init path none = Except.ok ⟨realpath path, realpath path⟩ := by
  simp [Folder.init, realpath_idem, commonprefix2_self]

/-- C10: `insert_file` resolves the destination name through
`get_filename` before any copy: whenever `get_filename` rejects the name,
`insert_file` fails with that same error and the filesystem is completely
unchanged (the error carries the original state). -/
theorem C10_insert_file_validates_first (f : Folder) (src dest_name : String)
    (fs : FS) (e : FolderError)
    (h : Folder.get_filename f dest_name = Except.error e) :
    Folder.insert_file f src (some dest_name) fs = Except.error (e, fs) := by
  simp [Folder.insert_file, h]

theorem C10_witness :
    Folder.insert_file ⟨"/a/b", "/a/b"⟩ "/s/t" (some "x/y") []
      = Except.error (FolderError.invalidNameError "x/y", []) :=
  C10_insert_file_validates_first ⟨"/a/b", "/a/b"⟩ "/s/t" "x/y" [] _ rfl

/-- C8: on the success domain of the underlying copy — the source resolves
to a regular file distinct from the destination, the destination is not a
directory, and the destination's parent exists as a directory (outside
this domain real `copyfile` raises `SameFileError`, EISDIR, ENOTDIR or
ENOENT) — `insert_file` with the destination name omitted uses the base
name of the source path, resolves it through `get_filename`, copies the
file's contents there, and returns the destination absolute path, which
is `absolutePath` joined with that name. -/
theorem C8_insert_file_default_name (f : Folder) (src d c : String) (fs : FS)
    (h1 : Folder.get_filename f (os_path_basename src) = Except.ok d)
    (h2 : fsEntryAt fs (pathKey src) = some (FSEntry.file c))
    (h3 : pathKey src ≠ pathKey d)
    (h4 : fsEntryAt fs (pathKey d) ≠ some FSEntry.dir)
    (h5 : fsEntryAt fs ((pathKey d).dropLast) = some FSEntry.dir) :
    Folder.insert_file f src none fs
        = Except.ok (d, fsSet fs (pathKey d) (FSEntry.file c))
    ∧ d = os_path_join f._abspath (os_path_basename src) := by
  constructor
  · have hcopy : shutil_copyfile fs src d
        = Except.ok (fsSet fs (pathKey d) (FSEntry.file c)) := by
      unfold shutil_copyfile
      rw [if_neg (by
        rintro ⟨hsame, _⟩
        exact h3 hsame)]
      rw [h2]
      dsimp only
      rw [if_neg h4, h5]
    simp [Folder.insert_file, h1, hcopy]
  · unfold Folder.get_filename at h1
    by_cases hc : os_path_split (os_path_join f._abspath (os_path_basename src))
        = (f._abspath, os_path_basename src)
    · rw [if_pos hc] at h1
      exact (Except.ok.inj h1).symm
    · rw [if_neg hc] at h1
      exact absurd h1 (by simp)

theorem C8_witness :
    Folder.insert_file ⟨"/a", "/a"⟩ "/s/t.txt" none
        [([['a']], FSEntry.dir), ([['s']], FSEntry.dir),
         ([['s'], ['t', '.', 't', 'x', 't']], FSEntry.file "hi")]
      = Except.ok ("/a/t.txt",
          fsSet [([['a']], FSEntry.dir), ([['s']], FSEntry.dir),
                 ([['s'], ['t', '.', 't', 'x', 't']], FSEntry.file "hi")]
            (pathKey "/a/t.txt") (FSEntry.file "hi"))
    ∧ "/a/t.txt" = os_path_join "/a" (os_path_basename "/s/t.txt") :=
  C8_insert_file_default_name ⟨"/a", "/a"⟩ "/s/t.txt" "/a/t.txt" "hi"
    [([['a']], FSEntry.dir), ([['s']], FSEntry.dir),
     ([['s'], ['t', '.', 't', 'x', 't']], FSEntry.file "hi")]
    rfl rfl (by decide) (by decide) rfl

theorem erase_true_of_rmtree_ok {f : Folder} {fs fs1 : FS}
    (hex : Folder.exists f fs = true)
    (hrm : shutil_rmtree fs f._abspath = Except.ok fs1) :
    Folder.erase f true fs = Folder.create f fs1 := by
  unfold Folder.erase
  rw [if_pos hex, hrm]
  rfl

theorem erase_true_of_not_exists {f : Folder} {fs : FS}
    (hex : Folder.exists f fs = false) :
    Folder.erase f true fs = Folder.create f fs := by
  unfold Folder.erase
  rw [if_neg (by rw [hex]; simp)]
  rfl

/-- C6 counterexample: the claim says `erase(recreateEmpty=true)` ALWAYS
leaves an existing, empty directory, but with a regular file at the
folder's path — a well-formed filesystem state — `shutil.rmtree` raises
ENOTDIR, so `erase` fails and leaves the file: afterwards there is no
directory at the path at all. -/
theorem C6_claim_counterexample :
    FSwf [([['a']], FSEntry.dir), ([['a'], ['b']], FSEntry.file "x")]
    ∧ Folder.erase ⟨"/a/b", "/a/b"⟩ true
        [([['a']], FSEntry.dir), ([['a'], ['b']], FSEntry.file "x")]
      = Except.error (FolderError.notADirectoryError "/a/b",
          [([['a']], FSEntry.dir), ([['a'], ['b']], FSEntry.file "x")])
    ∧ os_path_isdir [([['a']], FSEntry.dir), ([['a'], ['b']], FSEntry.file "x")]
        "/a/b" = false :=
  ⟨by decide, rfl, rfl⟩

/-- C6 as amended: `erase()` on a non-existent folder is a no-op and
raises nothing; and whenever neither the folder's path nor any of its
ancestors is occupied by a regular file (the states on which the
underlying `rmtree`/`makedirs` do not raise ENOTDIR),
`erase(create_empty_folder := true)` on a well-formed filesystem succeeds
and leaves an existing directory at the folder's path with no children —
an existing, empty directory. -/
theorem C6_erase_amended (f : Folder) (fs : FS) (hwf : FSwf fs)
    (hchain : ∀ i ≤ (pathKey f._abspath).length, 0 < i →
      entryIsFile (fsEntryAt fs ((pathKey f._abspath).take i)) = false) :
    (Folder.exists f fs = false → Folder.erase f false fs = Except.ok fs)
    ∧ ∃ fs2, Folder.erase f true fs = Except.ok fs2
        ∧ os_path_isdir fs2 f._abspath = true
        ∧ ∀ n e, (pathKey f._abspath ++ [n], e) ∉ fs2 := by
  refine ⟨fun h => by simp [Folder.erase, h], ?_⟩
  by_cases hex : Folder.exists f fs = true
  · by_cases hkey : pathKey f._abspath = []
    · have hrm : shutil_rmtree fs f._abspath
          = Except.ok (rmtreeKey fs (pathKey f._abspath)) := by
        unfold shutil_rmtree fsEntryAt
        rw [if_pos hkey]
      have hex1 : Folder.exists f (rmtreeKey fs (pathKey f._abspath)) = true := by
        unfold Folder.exists os_path_exists fsEntryAt
        rw [if_pos hkey]
        rfl
      have herase : Folder.erase f true fs
          = Except.ok (rmtreeKey fs (pathKey f._abspath)) := by
        rw [erase_true_of_rmtree_ok hex hrm]
        unfold Folder.create
        rw [if_pos hex1]
      refine ⟨rmtreeKey fs (pathKey f._abspath), herase, ?_, ?_⟩
      · unfold os_path_isdir fsEntryAt
        rw [if_pos hkey]
      · intro n e hmem
        exact not_mem_rmtreeKey_under (keyStartsWith_append _ _) hmem
    · have hlen : 0 < (pathKey f._abspath).length := List.length_pos.mpr hkey
      have hdir : fsEntryAt fs (pathKey f._abspath) = some FSEntry.dir := by
        have hfile := hchain (pathKey f._abspath).length (le_refl _) hlen
        rw [List.take_length] at hfile
        have hsome : (fsEntryAt fs (pathKey f._abspath)).isSome = true := hex
        cases hent : fsEntryAt fs (pathKey f._abspath) with
        | none => rw [hent] at hsome; simp at hsome
        | some v =>
          cases v with
          | dir => rfl
          | file c => rw [hent] at hfile; simp [entryIsFile] at hfile
      have hrm : shutil_rmtree fs f._abspath
          = Except.ok (rmtreeKey fs (pathKey f._abspath)) := by
        unfold shutil_rmtree
        rw [hdir]
      have hnone1 : fsGet (rmtreeKey fs (pathKey f._abspath)) (pathKey f._abspath)
          = none := fsGet_rmtreeKey_under (keyStartsWith_refl _)
      have hex1 : Folder.exists f (rmtreeKey fs (pathKey f._abspath)) = false := by
        unfold Folder.exists os_path_exists fsEntryAt
        rw [if_neg hkey, hnone1]
        rfl
      have hchain1 : ∀ i, 0 < i → i < (pathKey f._abspath).length →
          entryIsFile (fsEntryAt (rmtreeKey fs (pathKey f._abspath))
            ((pathKey f._abspath).take i)) = false := by
        intro i hipos hilt
        have hne : (pathKey f._abspath).take i ≠ [] := by
          intro hnil
          have hlen0 : ((pathKey f._abspath).take i).length = 0 := by
            rw [hnil]
            rfl
          rw [List.length_take] at hlen0
          omega
        have hshort : keyStartsWith ((pathKey f._abspath).take i)
            (pathKey f._abspath) = false := by
          apply keyStartsWith_false_of_shorter
          rw [List.length_take]
          omega
        have hpres := @fsGet_rmtreeKey_not_under fs _ _ hshort
        have h2 := hchain i (le_of_lt hilt) hipos
        unfold fsEntryAt at h2 ⊢
        rw [if_neg hne] at h2 ⊢
        rw [hpres]
        exact h2
      have hcreate := create_ok_of_clean hex1 hchain1
      have herase : Folder.erase f true fs
          = Except.ok (makedirsKey (rmtreeKey fs (pathKey f._abspath))
              (pathKey f._abspath)) := by
        rw [erase_true_of_rmtree_ok hex hrm]
        exact hcreate
      refine ⟨_, herase, ?_, ?_⟩
      · unfold os_path_isdir fsEntryAt
        rw [if_neg hkey, makedirsKey_target hnone1 hkey]
      · intro n e hmem
        exact not_mem_makedirs_child
          (not_mem_rmtreeKey_under (keyStartsWith_append _ _)) hmem
  · have hex' : Folder.exists f fs = false := by
      revert hex
      cases Folder.exists f fs <;> simp
    obtain ⟨hkey, hnone⟩ := exists_false_key_facts hex'
    have hchain' : ∀ i, 0 < i → i < (pathKey f._abspath).length →
        entryIsFile (fsEntryAt fs ((pathKey f._abspath).take i)) = false :=
      fun i hipos hilt => hchain i (le_of_lt hilt) hipos
    have hcreate := create_ok_of_clean hex' hchain'
    have herase : Folder.erase f true fs
        = Except.ok (makedirsKey fs (pathKey f._abspath)) := by
      rw [erase_true_of_not_exists hex']
      exact hcreate
    refine ⟨_, herase, ?_, ?_⟩
    · unfold os_path_isdir fsEntryAt
      rw [if_neg hkey, makedirsKey_target hnone hkey]
    · intro n e hmem
      refine not_mem_makedirs_child (fun hmem2 => ?_) hmem
      have hdesc := no_descendant_of_none hwf hkey hnone _ _ hmem2
      rw [keyStartsWith_append] at hdesc
      simp at hdesc

theorem C6_amended_witness :
    ∃ fs2, Folder.erase ⟨"/a/b", "/a/b"⟩ true
        [([['a']], FSEntry.dir), ([['a'], ['b']], FSEntry.dir),
         ([['a'], ['b'], ['c']], FSEntry.file "z")] = Except.ok fs2
      ∧ os_path_isdir fs2 "/a/b" = true
      ∧ ∀ n e, (pathKey "/a/b" ++ [n], e) ∉ fs2 :=
  (C6_erase_amended ⟨"/a/b", "/a/b"⟩
    [([['a']], FSEntry.dir), ([['a'], ['b']], FSEntry.dir),
     ([['a'], ['b'], ['c']], FSEntry.file "z")] (by decide) (by decide)).2

theorem childName?_append (p : List (List Char)) (n : List Char) :
    childName? p (p ++ [n]) = some n := by
  induction p with
  | nil => rfl
  | cons a ps ih => simp [childName?, ih]

theorem childName?_some {p k : List (List Char)} {n : List Char}
    (h : childName? p k = some n) : k = p ++ [n] := by
  induction p generalizing k with
  | nil =>
    cases k with
    | nil => simp [childName?] at h
    | cons b ks =>
      cases ks with
      | nil =>
        have : b = n := by simpa [childName?] using h
        rw [this]
        rfl
      | cons c ks' => simp [childName?] at h
  | cons a ps ih =>
    cases k with
    | nil => simp [childName?] at h
    | cons b ks =>
      simp only [childName?] at h
      by_cases hab : a = b
      · rw [if_pos hab] at h
        rw [hab, ih h]
        rfl
      · rw [if_neg hab] at h
        simp at h

/-- C5: on a well-formed filesystem, a successful `get_content_list`
returns exactly the pairs `(name, isFile)` where `name` is the bare name
of a direct child of the folder's path that matches the glob pattern, and
the boolean is true iff that child's entry is a regular file (it is false
iff it is a directory — the model resolves symlinks). -/
theorem C5_content_list_exact (fs : FS) (f : Folder) (pattern : String)
    (l : List (String × Bool)) (hwf : FSwf fs)
    (hok : Folder.get_content_list f pattern fs = Except.ok l)
    (name : String) (b : Bool) :
    (name, b) ∈ l ↔
      ∃ e, (pathKey f._abspath ++ [name.data], e) ∈ fs
        ∧ fnmatch name pattern = true ∧ b = FSEntry.isFile e := by
  unfold Folder.get_content_list at hok
  cases hld : os_listdir fs f._abspath with
  | error e0 =>
    rw [hld] at hok
    exact absurd hok (by simp)
  | ok names =>
    rw [hld] at hok
    dsimp only at hok
    have hl : l = names.filterMap (fun fname =>
        if fnmatch fname pattern then
          some (fname, !os_path_isdir fs (os_path_join f._abspath fname))
        else none) :=
      (Except.ok.inj hok).symm
    have hnames : names = fs.filterMap (fun ke =>
        (childName? (pathKey f._abspath) ke.1).map (fun n => (⟨n⟩ : String))) := by
      unfold os_listdir at hld
      by_cases hdir : os_path_isdir fs f._abspath = true
      · rw [if_pos hdir] at hld
        exact (Except.ok.inj hld).symm
      · rw [if_neg hdir] at hld
        exact absurd hld (by simp)
    subst hl
    constructor
    · intro hmem
      rw [List.mem_filterMap] at hmem
      obtain ⟨fname, hfname, hg⟩ := hmem
      by_cases hfn : fnmatch fname pattern = true
      · rw [if_pos hfn] at hg
        have hpair := Option.some.inj hg
        have hname : fname = name := congrArg Prod.fst hpair
        have hb : (!os_path_isdir fs (os_path_join f._abspath fname)) = b :=
          congrArg Prod.snd hpair
        subst hname
        rw [hnames, List.mem_filterMap] at hfname
        obtain ⟨ke, hke, hopt⟩ := hfname
        rw [Option.map_eq_some'] at hopt
        obtain ⟨n, hn, hmk⟩ := hopt
        have hke1 : ke.1 = pathKey f._abspath ++ [n] := childName?_some hn
        have hdata : fname.data = n := by rw [← hmk]
        have hmemfs : (pathKey f._abspath ++ [n], ke.2) ∈ fs := by
          have heta : (ke.1, ke.2) = ke := rfl
          rw [← hke1, heta]
          exact hke
        have hclean : cleanSeg n :=
          (hwf.2.1 ke hke).2 n
            (by rw [hke1]; exact List.mem_append_right _ (List.mem_singleton.mpr rfl))
        refine ⟨ke.2, by rw [hdata]; exact hmemfs, hfn, ?_⟩
        rw [← hb]
        have hjoin : pathKey (os_path_join f._abspath fname)
            = pathKey f._abspath ++ [n] := by
          have heq : pathKey (os_path_join f._abspath (⟨n⟩ : String))
              = pathKey f._abspath ++ [n] := pathKey_join_child f._abspath n hclean
          rw [← hmk]
          exact heq
        unfold os_path_isdir fsEntryAt
        rw [hjoin, if_neg (by simp), fsGet_of_mem_nodup hwf.1 hmemfs]
        cases ke.2 <;> rfl
      · rw [if_neg hfn] at hg
        exact absurd hg (by simp)
    · rintro ⟨e, hmemfs, hfn, hb⟩
      rw [List.mem_filterMap]
      refine ⟨name, ?_, ?_⟩
      · rw [hnames, List.mem_filterMap]
        refine ⟨(pathKey f._abspath ++ [name.data], e), hmemfs, ?_⟩
        rw [childName?_append]
        rfl
      · rw [if_pos hfn]
        have hclean : cleanSeg name.data :=
          (hwf.2.1 _ hmemfs).2 name.data
            (List.mem_append_right _ (List.mem_singleton.mpr rfl))
        have hjoin : pathKey (os_path_join f._abspath name)
            = pathKey f._abspath ++ [name.data] :=
          pathKey_join_child f._abspath name.data hclean
        have hisdir : (!os_path_isdir fs (os_path_join f._abspath name)) = b := by
          unfold os_path_isdir fsEntryAt
          rw [hjoin, if_neg (by simp), fsGet_of_mem_nodup hwf.1 hmemfs, hb]
          cases e <;> rfl
        rw [hisdir]

theorem C5_witness :
    ∃ e, (pathKey "/a" ++ [String.data "x"], e)
        ∈ ([([['a']], FSEntry.dir), ([['a'], ['x']], FSEntry.file "hi"),
            ([['a'], ['y']], FSEntry.dir)] : FS)
      ∧ fnmatch "x" "*" = true ∧ true = FSEntry.isFile e :=
  (C5_content_list_exact
      [([['a']], FSEntry.dir), ([['a'], ['x']], FSEntry.file "hi"),
       ([['a'], ['y']], FSEntry.dir)]
      ⟨"/a", "/a"⟩ "*" [("x", true), ("y", false)] (by decide) rfl "x" true).mp
    (by decide)

example : realpath "/a/b/../b2/c" = "/a/b2/c" := by rfl
example : realpath "/a//b/./c/" = "/a/b/c" := by rfl
example : realpath "/.." = "/" := by rfl
example : commonprefix2 "/a/b2/c" "/a/b" = "/a/b" := by rfl
example : Folder.init "/a/b2/c" (some "/a/b") = Except.ok ⟨"/a/b2/c", "/a/b"⟩ := by rfl
example : segContained "/a/b2/c" "/a/b" = false := by rfl
example : segContained "/a/b/c" "/a/b" = true := by rfl
example : os_path_split "/a/b/report.txt" = ("/a/b", "report.txt") := by rfl
example : os_path_split "/a/b/" = ("/a/b", "") := by rfl
example : os_path_join "/a/b" ".." = "/a/b/.." := by rfl
example : Folder.get_filename ⟨"/a/b", "/a/b"⟩ ".." = Except.ok "/a/b/.." := by rfl
example : Folder.get_filename ⟨"/a/b", "/a/b"⟩ "x/y"
    = Except.error (FolderError.invalidNameError "x/y") := by rfl
